import Mathlib

/-!
# Shallow embedding of the horaedb-client-rs routing core

This file embeds, as executable Lean definitions, the client-side routing
core of the `horaedb-client-rs` repository:

* `src/model/route.rs`   — `Endpoint` and its `FromStr` parser;
* `src/util.rs`          — the `should_refresh` routing-stale classifier;
* `src/errors.rs`        — the `RouteBasedWriteError` result aggregator;
* `src/router.rs`        — `RouterImpl::route` / `RouterImpl::evict`
  (the `DashMap` cache is modelled as an association list, the rpc client
  as an explicit oracle function, and the number/content of remote calls
  is returned as part of the result so that "how many RPCs were issued"
  is observable);
* `src/db_client/route_based.rs` — the query path (`sql_query`) and the
  partitioning/aggregation skeleton of the write path (`write`).

Strings are modelled as `List Char`; `u32` values as `Nat` with an
explicit `% 2^32` where the source performs `u32` arithmetic.
-/

namespace Horae

/-- Strings of the source are modelled as lists of characters. -/
abbrev Str := List Char

/-- `2^32`, the modulus of `u32` arithmetic. -/
def U32MOD : Nat := 4294967296

/-- `Endpoint` from `src/model/route.rs`: an address and a port
(`port: u32`, modelled as `Nat`). -/
structure Endpoint where
  addr : Str
  port : Nat
  deriving DecidableEq, Repr

/-! ## String helpers (Rust `str` methods used by the source) -/

/-- `needle` occurs at the very start of `hay`
(Rust `str::starts_with` on the char level). -/
def strStarts : Str → Str → Bool
  | _, [] => true
  | [], _ :: _ => false
  | h :: t, n :: ns => h == n && strStarts t ns

/-- Rust `str::contains`: `needle` occurs as a contiguous substring of
`hay` (the empty needle is contained in every string). -/
def strContains : Str → Str → Bool
  | [], needle => needle.isEmpty
  | h :: t, needle => strStarts (h :: t) needle || strContains t needle

/-- Rust `str::rsplit_once(c)`: split around the LAST occurrence of `c`,
returning `(before, after)`; `none` when `c` does not occur. -/
def rsplitOnce : Str → Char → Option (Str × Str)
  | [], _ => none
  | h :: t, c =>
    match rsplitOnce t c with
    | some (a, b) => some (h :: a, b)
    | none => if h == c then some ([], t) else none

/-- Value of an ASCII decimal digit. -/
def digitVal (c : Char) : Option Nat :=
  if '0' ≤ c ∧ c ≤ '9' then some (c.toNat - '0'.toNat) else none

/-- Accumulating digit-string evaluation: fails on the first non-digit. -/
def parseDigits : Str → Nat → Option Nat
  | [], acc => some acc
  | c :: rest, acc =>
    match digitVal c with
    | some d => parseDigits rest (acc * 10 + d)
    | none => none

/-- Rust `str::parse::<u32>()` (`u32::from_str`): an optional leading
`'+'`, then one or more ASCII digits, and the value must fit in `u32`.
Returns `none` on the empty string, a stray sign, a non-digit, or
overflow. -/
def parseU32 (s : Str) : Option Nat :=
  let body := match s with
    | '+' :: rest => rest
    | other => other
  match body with
  | [] => none
  | _ :: _ =>
    match parseDigits body 0 with
    | some v => if v < U32MOD then some v else none
    | none => none

/-- `<Endpoint as FromStr>::from_str` from `src/model/route.rs`:
split at the last `':'` (error when there is none), reject an empty
address, parse the suffix as `u32` (error on failure), reject a port
above `u16::MAX = 65535`. -/
def endpointFromStr (s : Str) : Option Endpoint :=
  match rsplitOnce s ':' with
  | none => none
  | some (addr, rawPort) =>
    if addr.isEmpty then none
    else
      match parseU32 rawPort with
      | none => none
      | some port =>
        if port > 65535 then none else some ⟨addr, port⟩

/-! ## `src/util.rs` -/

/-- `StatusCode::Ok as u32`. -/
def statusOk : Nat := 200

/-- `StatusCode::InvalidArgument as u32`. -/
def statusInvalidArgument : Nat := 400

/-- `should_refresh` from `src/util.rs`: the failure's code equals the
server's invalid-argument code and the message contains both `"Table"`
and `"not found"`. -/
def shouldRefresh (code : Nat) (msg : Str) : Bool :=
  code == statusInvalidArgument
    && strContains msg "Table".data
    && strContains msg "not found".data

/-! ## `src/errors.rs` -/

/-- `Response` from `src/model/write/response.rs`: row counts
(`u32`, modelled as `Nat`). -/
structure WriteResponse where
  success : Nat
  failed : Nat
  deriving DecidableEq, Repr

/-- The `Error` enum from `src/errors.rs`, restricted to the payloads the
claims observe.  `server` carries a `ServerError { code, msg }`; the other
constructors stand for the remaining variants (`Rpc`, `Connect`, `Client`,
`AuthFail`, `Unknown`), whose payloads the routing core never inspects. -/
inductive CError where
  | server (code : Nat) (msg : Str)
  | rpc
  | connect (addr : Str)
  | client (msg : Str)
  | authFail
  | noDatabase
  | unknown (msg : Str)
  deriving DecidableEq, Repr

/-- `Result<T>` from `src/errors.rs`. -/
abbrev CResult (α : Type) := Except CError α

/-- `RouteBasedWriteError` from `src/errors.rs`: the merged ok entry
(table names and combined counts) plus the failed `(tables, error)`
pairs. -/
structure RouteBasedWriteError where
  ok : List Str × WriteResponse
  errors : List (List Str × CError)
  deriving Repr

/-- One loop iteration of
`From<Vec<(Vec<String>, Result<Response>)>> for RouteBasedWriteError`:
the accumulator is `(success_total, failed_total, ok_tables, errors)`.
The `u32` additions wrap modulo `2^32`. -/
def aggStep (acc : Nat × Nat × List Str × List (List Str × CError))
    (p : List Str × CResult WriteResponse) :
    Nat × Nat × List Str × List (List Str × CError) :=
  match p.2 with
  | .ok resp =>
    ((acc.1 + resp.success) % U32MOD, (acc.2.1 + resp.failed) % U32MOD,
      acc.2.2.1 ++ p.1, acc.2.2.2)
  | .error e =>
    (acc.1, acc.2.1, acc.2.2.1, acc.2.2.2 ++ [(p.1, e)])

/-- The `From<Vec<(Vec<String>, Result<Response>)>>` conversion of
`src/errors.rs`: fold `aggStep` over the pairs starting from zero
totals and empty lists. -/
def fromPairs (l : List (List Str × CResult WriteResponse)) :
    RouteBasedWriteError :=
  let acc := l.foldl aggStep (0, 0, [], [])
  { ok := (acc.2.2.1, ⟨acc.1, acc.2.1⟩), errors := acc.2.2.2 }

/-- `RouteBasedWriteError::all_ok`. -/
def allOk (e : RouteBasedWriteError) : Bool := e.errors.isEmpty

/-- Success count of a successful pair (specification projection used to
characterize the fold). -/
def okCaseSucc (p : List Str × CResult WriteResponse) : Option Nat :=
  match p.2 with
  | .ok r => some r.success
  | .error _ => none

/-- Failed count of a successful pair. -/
def okCaseFail (p : List Str × CResult WriteResponse) : Option Nat :=
  match p.2 with
  | .ok r => some r.failed
  | .error _ => none

/-- Table-name group of a successful pair. -/
def okCaseTables (p : List Str × CResult WriteResponse) :
    Option (List Str) :=
  match p.2 with
  | .ok _ => some p.1
  | .error _ => none

/-- A failed pair, kept whole. -/
def errCase (p : List Str × CResult WriteResponse) :
    Option (List Str × CError) :=
  match p.2 with
  | .error e => some (p.1, e)
  | .ok _ => none

/-! ## `src/router.rs`

The `DashMap<String, Endpoint>` cache is modelled as an association list
with distinct-key insert-or-overwrite, the `HashMap<String, usize>` of
misses likewise (keyed by table, valued by index), and the
`rpc_client.route` call as an oracle `List Str → CResult (List RouteEntry)`
from the request's table list to the response.  `route` returns, besides
the result and the new cache, the list of rpc route requests it issued,
so that the number of remote resolution calls is observable. -/

/-- One entry of the rpc route response
(`Route { table, endpoint: Option<Endpoint> }`). -/
structure RouteEntry where
  table : Str
  endpoint : Option Endpoint
  deriving DecidableEq, Repr

/-- The route cache: table name → endpoint. -/
abbrev Cache := List (Str × Endpoint)

/-- `DashMap::get` on the cache. -/
def cacheGet (c : Cache) (k : Str) : Option Endpoint :=
  match c with
  | [] => none
  | (k', v) :: rest => if k' == k then some v else cacheGet rest k

/-- `DashMap::insert` on the cache: overwrite the key when present,
append otherwise. -/
def cacheInsert (c : Cache) (k : Str) (v : Endpoint) : Cache :=
  match c with
  | [] => [(k, v)]
  | (k', v') :: rest =>
    if k' == k then (k', v) :: rest else (k', v') :: cacheInsert rest k v

/-- `DashMap::remove` on the cache. -/
def cacheRemove (c : Cache) (k : Str) : Cache :=
  match c with
  | [] => []
  | (k', v') :: rest =>
    if k' == k then rest else (k', v') :: cacheRemove rest k

/-- The miss map of `RouterImpl::route`: table → index into the input. -/
abbrev MissMap := List (Str × Nat)

/-- `HashMap::insert` on the miss map (overwrite when present). -/
def missInsert (m : MissMap) (k : Str) (v : Nat) : MissMap :=
  match m with
  | [] => [(k, v)]
  | (k', v') :: rest =>
    if k' == k then (k', v) :: rest else (k', v') :: missInsert rest k v

/-- `HashMap::get` on the miss map. -/
def missGet (m : MissMap) (k : Str) : Option Nat :=
  match m with
  | [] => none
  | (k', v) :: rest => if k' == k then some v else missGet rest k

/-- First loop of `RouterImpl::route`: walk the input tables with their
indices, recording every table absent from the cache (with its index)
into the miss map. -/
def buildMisses (cache : Cache) : List Str → Nat → MissMap → MissMap
  | [], _, m => m
  | t :: rest, idx, m =>
    match cacheGet cache t with
    | some _ => buildMisses cache rest (idx + 1) m
    | none => buildMisses cache rest (idx + 1) (missInsert m t idx)

/-- The same first loop, seen on the `target_endpoints` vector: each slot
starts as `Some(default)` and a cache hit overwrites it with the cached
endpoint (a miss leaves the default in place). -/
def initialTargets (cache : Cache) (default : Endpoint) (tables : List Str) :
    List (Option Endpoint) :=
  tables.map fun t =>
    match cacheGet cache t with
    | some ep => some ep
    | none => some default

/-- Second loop of `RouterImpl::route`: for each response route, skip it
when its endpoint is absent (and do not cache it); otherwise look its
table up in the miss map (an unknown table aborts with `Error::Unknown`,
leaving the cache mutations already performed in place), insert the
endpoint into the cache and overwrite the table's slot. -/
def fillRoutes (misses : MissMap) :
    List RouteEntry → List (Option Endpoint) → Cache →
    CResult (List (Option Endpoint)) × Cache
  | [], tgt, c => (.ok tgt, c)
  | r :: rest, tgt, c =>
    match r.endpoint with
    | none => fillRoutes misses rest tgt c
    | some ep =>
      match missGet misses r.table with
      | none => (.error (.unknown r.table), c)
      | some idx =>
        fillRoutes misses rest (tgt.set idx (some ep)) (cacheInsert c r.table ep)

/-- `RouterImpl::route` from `src/router.rs`.  Inputs: the cache, the
default endpoint, the rpc oracle and the requested tables.  Output: the
call's result, the cache afterwards and the list of rpc route requests
issued (the source issues the remote call unconditionally, with the miss
tables as the request). -/
def routeImpl (cache : Cache) (default : Endpoint)
    (rpc : List Str → CResult (List RouteEntry)) (tables : List Str) :
    CResult (List (Option Endpoint)) × Cache × List (List Str) :=
  let misses := buildMisses cache tables 0 []
  let missTables := misses.map Prod.fst
  match rpc missTables with
  | .error e => (.error e, cache, [missTables])
  | .ok routes =>
    let tgt := initialTargets cache default tables
    let (res, cache') := fillRoutes misses routes tgt cache
    (res, cache', [missTables])

/-- `RouterImpl::evict`: remove every listed table from the cache. -/
def evictImpl (cache : Cache) (tables : List Str) : Cache :=
  tables.foldl cacheRemove cache

/-! ## `src/db_client/route_based.rs`

The write request's `point_groups: HashMap<String, PointGroup>` is
modelled as an association list with distinct keys (`List (Str × α)`
with the group payload opaque); `should_routes` is its key list.  The
source zips the router's endpoints with `should_routes` and fetches each
table's group by key lookup; since the keys are the distinct keys of the
map, that lookup returns exactly the paired value, so the model zips the
endpoints with the `(key, value)` pairs directly. -/

/-- `HashMap::insert` on a partition's `point_groups`
(overwrite when the key is present, append otherwise). -/
def insertGroup {α : Type} (g : List (Str × α)) (m : Str) (v : α) :
    List (Str × α) :=
  match g with
  | [] => [(m, v)]
  | (k, w) :: rest =>
    if k == m then (k, v) :: rest else (k, w) :: insertGroup rest m v

/-- `partition_by_endpoint.entry(ep).or_insert_with(default)` followed by
inserting `(m, v)` into that partition's `point_groups`. -/
def addToPartition {α : Type} (parts : List (Endpoint × List (Str × α)))
    (ep : Endpoint) (m : Str) (v : α) : List (Endpoint × List (Str × α)) :=
  match parts with
  | [] => [(ep, [(m, v)])]
  | (e, g) :: rest =>
    if e = ep then (e, insertGroup g m v) :: rest
    else (e, g) :: addToPartition rest ep m v

/-- The partitioning loop of `RouteBasedImpl::write`: fold over the
zipped `(endpoint, (table, group))` pairs, adding routable tables to
their endpoint's partition and unroutable ones (in order) to
`no_corresponding_endpoints`. -/
def partitionStep {α : Type}
    (acc : List (Endpoint × List (Str × α)) × List Str)
    (p : Option Endpoint × Str × α) :
    List (Endpoint × List (Str × α)) × List Str :=
  match p.1 with
  | some ep => (addToPartition acc.1 ep p.2.1 p.2.2, acc.2)
  | none => (acc.1, acc.2 ++ [p.2.1])

/-- Partition the write request by resolved endpoint
(`RouteBasedImpl::write`, the `for_each` over
`endpoints.zip(should_routes)`): returns the per-endpoint partitions and
the list of tables without a corresponding endpoint. -/
def partitionWrite {α : Type} (pointGroups : List (Str × α))
    (endpoints : List (Option Endpoint)) :
    List (Endpoint × List (Str × α)) × List Str :=
  (endpoints.zip pointGroups).foldl partitionStep ([], [])

/-- The table names of every partition, joined
(`write_tables`, flattened). -/
def partsTables {α : Type} (parts : List (Endpoint × List (Str × α))) :
    List Str :=
  (parts.map fun p => p.2.map Prod.fst).flatten

/-- Error message of the unroutable partition. -/
def noEndpointsMsg : Str := "tables don't have corresponding endpoints".data

/-- `tables_result_pairs`: each dispatched partition's table names paired
with its rpc outcome, plus — when non-empty — the unroutable partition
paired with the fixed `Error::Unknown` outcome. -/
def tablesResultPairs {α : Type} (parts : List (Endpoint × List (Str × α)))
    (unroutable : List Str) (results : List (CResult WriteResponse)) :
    List (List Str × CResult WriteResponse) :=
  ((parts.zip results).map fun pr => (pr.1.2.map Prod.fst, pr.2))
    ++ (if unroutable.isEmpty then []
        else [(unroutable, .error (.unknown noEndpointsMsg))])

/-- The eviction set computed at the end of `RouteBasedImpl::write`:
the table groups of exactly those failed partitions whose error is a
server error satisfying `should_refresh`, flattened. -/
def evictTables (pairs : List (List Str × CResult WriteResponse)) :
    List Str :=
  (pairs.filterMap fun p =>
    match p.2 with
    | .error (.server code msg) =>
      if shouldRefresh code msg then some p.1 else none
    | _ => none).flatten

/-! ### The query path -/

/-- `resolve_database` from `src/db_client/mod.rs`: the context's
database wins, else the default database, else `Error::NoDatabase`. -/
def resolveDatabase (ctxDb defaultDb : Option Str) : CResult (Option Str) :=
  match ctxDb, defaultDb with
  | some d, _ => .ok (some d)
  | none, some d => .ok (some d)
  | none, none => .error .noDatabase

/-- Error message for an empty table list in a query. -/
def emptyTablesMsg : Str :=
  "tables in query request can't be empty in route based mode".data

/-- Error message when the first table resolved to no endpoint. -/
def noEndpointMsg : Str := "table doesn't have corresponding endpoint".data

/-- Observable effects of one `sql_query` call: how many times the router
was (lazily) initialized, the table lists passed to `Router::route`, how
many query rpcs were sent, and the table lists passed to
`Router::evict`. -/
structure QueryTrace where
  routerInits : Nat
  routeCalls : List (List Str)
  sendCalls : Nat
  evictCalls : List (List Str)
  deriving DecidableEq, Repr

/-- `RouteBasedImpl::sql_query` from `src/db_client/route_based.rs`,
with the lazy router construction, the router and the per-endpoint query
rpc supplied as oracles.  The source reads `eps[0].take()` after a
successful route; the router contract returns one slot per input table,
so with a non-empty table list the slot exists — the model reads the
head slot (defaulting to `none`). -/
def sqlQueryRB {α : Type} (ctxDb defaultDb : Option Str) (tables : List Str)
    (initRouter : CResult Unit)
    (route : List Str → CResult (List (Option Endpoint)))
    (send : CResult α) : CResult α × QueryTrace :=
  if tables.isEmpty then
    (.error (.unknown emptyTablesMsg), ⟨0, [], 0, []⟩)
  else
    match resolveDatabase ctxDb defaultDb with
    | .error e => (.error e, ⟨0, [], 0, []⟩)
    | .ok _ =>
      match initRouter with
      | .error e => (.error e, ⟨1, [], 0, []⟩)
      | .ok _ =>
        match route tables with
        | .error e => (.error e, ⟨1, [tables], 0, []⟩)
        | .ok eps =>
          match eps.headD none with
          | none => (.error (.unknown noEndpointMsg), ⟨1, [tables], 0, []⟩)
          | some _ =>
            match send with
            | .ok resp => (.ok resp, ⟨1, [tables], 1, []⟩)
            | .error e => (.error e, ⟨1, [tables], 1, [tables]⟩)

/-! ## Helper lemmas -/

theorem missInsert_keys_mem (m : MissMap) (k : Str) (v : Nat) (t : Str) :
    t ∈ (missInsert m k v).map Prod.fst ↔
      t = k ∨ t ∈ m.map Prod.fst := by
  induction m with
  | nil => simp [missInsert]
  | cons p rest ih =>
    obtain ⟨k', v'⟩ := p
    by_cases h : k' = k
    · simp [missInsert, h]
    · simp only [missInsert, beq_iff_eq, if_neg h, List.map_cons, List.mem_cons, ih]
      tauto

theorem buildMisses_keys_mem (cache : Cache) (ts : List Str) (n : Nat)
    (m : MissMap) (t : Str) :
    t ∈ (buildMisses cache ts n m).map Prod.fst ↔
      t ∈ m.map Prod.fst ∨ (t ∈ ts ∧ cacheGet cache t = none) := by
  induction ts generalizing n m with
  | nil => simp [buildMisses]
  | cons hd rest ih =>
    cases hhd : cacheGet cache hd with
    | some ep =>
      simp only [buildMisses, hhd, ih, List.mem_cons]
      constructor
      · tauto
      · rintro (h | ⟨(rfl | h), hc⟩)
        · exact Or.inl h
        · rw [hhd] at hc; cases hc
        · exact Or.inr ⟨h, hc⟩
    | none =>
      simp only [buildMisses, hhd, ih, missInsert_keys_mem, List.mem_cons]
      constructor
      · rintro ((rfl | h) | h)
        · exact Or.inr ⟨Or.inl rfl, hhd⟩
        · exact Or.inl h
        · tauto
      · rintro (h | ⟨(rfl | h), hc⟩)
        · exact Or.inl (Or.inr h)
        · exact Or.inl (Or.inl rfl)
        · exact Or.inr ⟨h, hc⟩

theorem buildMisses_all_hit (cache : Cache) (ts : List Str) (n : Nat)
    (m : MissMap) (h : ∀ t ∈ ts, cacheGet cache t ≠ none) :
    buildMisses cache ts n m = m := by
  induction ts generalizing n with
  | nil => rfl
  | cons hd rest ih =>
    cases hhd : cacheGet cache hd with
    | some ep =>
      simp only [buildMisses, hhd]
      exact ih (n + 1) fun t ht => h t (List.mem_cons_of_mem _ ht)
    | none => exact absurd hhd (h hd (List.mem_cons_self _ _))

theorem initialTargets_length (cache : Cache) (default : Endpoint)
    (tables : List Str) :
    (initialTargets cache default tables).length = tables.length := by
  simp [initialTargets]

theorem initialTargets_isSome (cache : Cache) (default : Endpoint)
    (tables : List Str) :
    ∀ x ∈ initialTargets cache default tables, x.isSome := by
  intro x hx
  simp only [initialTargets, List.mem_map] at hx
  obtain ⟨t, _, rfl⟩ := hx
  cases cacheGet cache t <;> simp

theorem fillRoutes_ok (misses : MissMap) (routes : List RouteEntry) :
    ∀ (tgt : List (Option Endpoint)) (c : Cache) res c',
      fillRoutes misses routes tgt c = (.ok res, c') →
      res.length = tgt.length ∧
        ((∀ x ∈ tgt, x.isSome) → ∀ x ∈ res, x.isSome) := by
  induction routes with
  | nil =>
    intro tgt c res c' h
    simp only [fillRoutes, Prod.mk.injEq, Except.ok.injEq] at h
    obtain ⟨rfl, rfl⟩ := h
    exact ⟨rfl, fun h x hx => h x hx⟩
  | cons r rest ih =>
    intro tgt c res c' h
    simp only [fillRoutes] at h
    cases hre : r.endpoint with
    | none =>
      rw [hre] at h
      exact ih tgt c res c' h
    | some ep =>
      rw [hre] at h
      cases hmg : missGet misses r.table with
      | none =>
        rw [hmg] at h
        simp at h
      | some idx =>
        rw [hmg] at h
        have := ih (tgt.set idx (some ep)) (cacheInsert c r.table ep) res c' h
        refine ⟨by rw [this.1, List.length_set], fun hall x hx => ?_⟩
        refine this.2 ?_ x hx
        intro y hy
        rcases List.mem_or_eq_of_mem_set hy with hmem | rfl
        · exact hall y hmem
        · rfl

theorem foldl_partitionStep_snd {α : Type}
    (l : List (Option Endpoint × Str × α)) :
    ∀ (parts : List (Endpoint × List (Str × α))) (u : List Str),
      (∀ p ∈ l, p.1.isSome) → (l.foldl partitionStep (parts, u)).2 = u := by
  induction l with
  | nil => intro parts u _; rfl
  | cons p rest ih =>
    intro parts u hall
    cases hp : p.1 with
    | none =>
      have := hall p (List.mem_cons_self _ _)
      rw [hp] at this
      simp at this
    | some ep =>
      simp only [List.foldl_cons, partitionStep, hp]
      exact ih _ u fun q hq => hall q (List.mem_cons_of_mem _ hq)

theorem partitionWrite_no_unroutable {α : Type} (pgs : List (Str × α))
    (eps : List (Option Endpoint)) (h : ∀ x ∈ eps, x.isSome) :
    (partitionWrite pgs eps).2 = [] := by
  refine foldl_partitionStep_snd _ [] [] fun p hp => ?_
  exact h p.1 (List.of_mem_zip hp).1

theorem routeImpl_rpc_ok (cache : Cache) (default : Endpoint)
    (rpc : List Str → CResult (List RouteEntry)) (tables : List Str)
    (routes : List RouteEntry)
    (h : rpc ((buildMisses cache tables 0 []).map Prod.fst) = .ok routes) :
    routeImpl cache default rpc tables =
      ((fillRoutes (buildMisses cache tables 0 []) routes
          (initialTargets cache default tables) cache).1,
        (fillRoutes (buildMisses cache tables 0 []) routes
          (initialTargets cache default tables) cache).2,
        [(buildMisses cache tables 0 []).map Prod.fst]) := by
  simp only [routeImpl, h]

theorem rsplitOnce_eq_none (c : Char) :
    ∀ s : Str, rsplitOnce s c = none ↔ c ∉ s := by
  intro s
  induction s with
  | nil => simp [rsplitOnce]
  | cons hd t ih =>
    simp only [rsplitOnce]
    cases hsp : rsplitOnce t c with
    | some ab =>
      have hct : c ∈ t := by
        by_contra hc
        rw [← ih] at hc
        rw [hc] at hsp
        cases hsp
      simp [List.mem_cons, hct]
    | none =>
      have hct : c ∉ t := ih.mp hsp
      by_cases hc : hd = c
      · simp [hc]
      · rw [if_neg (show ¬((hd == c) = true) by simp [hc])]
        constructor
        · intro _ hmem
          rcases List.mem_cons.mp hmem with h | h
          · exact hc h.symm
          · exact hct h
        · intro _
          rfl

theorem rsplitOnce_sound (c : Char) :
    ∀ s a b : Str, rsplitOnce s c = some (a, b) → s = a ++ c :: b ∧ c ∉ b := by
  intro s
  induction s with
  | nil => intro a b h; simp [rsplitOnce] at h
  | cons hd t ih =>
    intro a b h
    simp only [rsplitOnce] at h
    cases hsp : rsplitOnce t c with
    | some ab =>
      obtain ⟨a', b'⟩ := ab
      rw [hsp] at h
      simp only [Option.some.injEq, Prod.mk.injEq] at h
      have hs := ih a' b' hsp
      refine ⟨?_, h.2 ▸ hs.2⟩
      rw [← h.1, ← h.2, List.cons_append, ← hs.1]
    | none =>
      rw [hsp] at h
      by_cases hc : hd = c
      · simp only [hc, beq_self_eq_true, if_true, Option.some.injEq,
          Prod.mk.injEq] at h
        obtain ⟨rfl, rfl⟩ := h
        exact ⟨by simp [hc], (rsplitOnce_eq_none c t).mp hsp⟩
      · have : (hd == c) = false := by simp [hc]
        rw [this] at h
        simp at h

theorem lastSplit_unique (c : Char) :
    ∀ a₁ b₁ a₂ b₂ : Str, a₁ ++ c :: b₁ = a₂ ++ c :: b₂ →
      c ∉ b₁ → c ∉ b₂ → a₁ = a₂ ∧ b₁ = b₂ := by
  intro a₁
  induction a₁ with
  | nil =>
    intro b₁ a₂ b₂ h h1 h2
    cases a₂ with
    | nil =>
      simp only [List.nil_append, List.cons.injEq] at h
      exact ⟨rfl, h.2⟩
    | cons x a₂' =>
      simp only [List.nil_append, List.cons_append, List.cons.injEq] at h
      exact absurd (h.2 ▸ List.mem_append_right a₂'
        (List.mem_cons_self c b₂)) h1
  | cons x a₁' ih =>
    intro b₁ a₂ b₂ h h1 h2
    cases a₂ with
    | nil =>
      simp only [List.cons_append, List.nil_append, List.cons.injEq] at h
      exact absurd (h.2.symm ▸ List.mem_append_right a₁'
        (List.mem_cons_self c b₁)) h2
    | cons y a₂' =>
      simp only [List.cons_append, List.cons.injEq] at h
      obtain ⟨rfl, h⟩ := h
      have := ih b₁ a₂' b₂ h h1 h2
      exact ⟨by rw [this.1], this.2⟩

theorem rsplitOnce_complete (c : Char) (a b : Str) (hb : c ∉ b) :
    rsplitOnce (a ++ c :: b) c = some (a, b) := by
  have hmem : c ∈ a ++ c :: b :=
    List.mem_append_right a (List.mem_cons_self c b)
  cases hsp : rsplitOnce (a ++ c :: b) c with
  | none => exact absurd hmem ((rsplitOnce_eq_none c _).mp hsp)
  | some ab =>
    obtain ⟨a', b'⟩ := ab
    have hs := rsplitOnce_sound c _ a' b' hsp
    have := lastSplit_unique c a' b' a b hs.1.symm hs.2 hb
    rw [this.1, this.2]

/-! ## Claim theorems -/

/-- **C3.** `should_refresh(code, msg)` holds iff `code = 400` and `msg`
contains both `"Table"` and `"not found"`; and the write path's eviction
set contains exactly the tables of failed partitions whose error is a
server error satisfying `should_refresh` — no other failure class
contributes. -/
theorem C3_shouldRefresh_eviction :
    (∀ (code : Nat) (msg : Str),
      shouldRefresh code msg = true ↔
        code = 400 ∧ strContains msg "Table".data = true ∧
          strContains msg "not found".data = true)
    ∧ (∀ (pairs : List (List Str × CResult WriteResponse)) (t : Str),
        t ∈ evictTables pairs ↔
          ∃ tables code msg,
            (tables, Except.error (CError.server code msg)) ∈ pairs ∧
            t ∈ tables ∧ shouldRefresh code msg = true) := by
  constructor
  · intro code msg
    simp [shouldRefresh, statusInvalidArgument, Bool.and_eq_true, beq_iff_eq,
      and_assoc]
  · intro pairs t
    simp only [evictTables, List.mem_flatten, List.mem_filterMap]
    constructor
    · rintro ⟨l, ⟨⟨tables, r⟩, hmem, hf⟩, ht⟩
      cases r with
      | ok v => simp at hf
      | error e =>
        cases e with
        | server c m =>
          by_cases hsr : shouldRefresh c m
          · simp only [hsr, if_true] at hf
            injection hf with hf2
            subst hf2
            exact ⟨tables, c, m, hmem, ht, hsr⟩
          · simp [hsr] at hf
        | rpc => simp at hf
        | connect a => simp at hf
        | client m => simp at hf
        | authFail => simp at hf
        | noDatabase => simp at hf
        | unknown m => simp at hf
    · rintro ⟨tables, c, m, hmem, ht, hsr⟩
      exact ⟨tables, ⟨⟨tables, .error (.server c m)⟩, hmem, by simp [hsr]⟩, ht⟩

/-- **C7.** A query whose table list is empty fails immediately with the
client-local error and performs zero router initializations, zero router
route calls, zero query rpcs and zero evictions. -/
theorem C7_empty_query_rejected {α : Type} (ctxDb defaultDb : Option Str)
    (initRouter : CResult Unit)
    (route : List Str → CResult (List (Option Endpoint)))
    (send : CResult α) :
    sqlQueryRB ctxDb defaultDb [] initRouter route send =
      (.error (.unknown emptyTablesMsg), ⟨0, [], 0, []⟩) := rfl

/-- **C5.** When the remote resolution rpc fails, the whole `route` call
returns that error and the cache is left exactly as it was (no partial
update for the batch). -/
theorem C5_route_rpc_failure_no_partial_update (cache : Cache)
    (default : Endpoint) (rpc : List Str → CResult (List RouteEntry))
    (tables : List Str) (e : CError)
    (h : rpc ((buildMisses cache tables 0 []).map Prod.fst) = .error e) :
    routeImpl cache default rpc tables =
      (.error e, cache, [(buildMisses cache tables 0 []).map Prod.fst]) := by
  simp only [routeImpl, h]

/-- Closed witness for `C5_route_rpc_failure_no_partial_update`. -/
theorem C5_witness :
    routeImpl [(['a'], ⟨['h'], 5⟩)] ⟨['d'], 2⟩
        (fun _ => Except.error CError.rpc) [['a'], ['b']] =
      (.error CError.rpc, [(['a'], ⟨['h'], 5⟩)], [[['b']]]) :=
  C5_route_rpc_failure_no_partial_update
    [(['a'], ⟨['h'], 5⟩)] ⟨['d'], 2⟩ (fun _ => Except.error CError.rpc)
    [['a'], ['b']] CError.rpc rfl

/-- **C1 (counterexample).** With table `"t"` already cached — so the
call has zero misses — a `route` call for `["t"]` still issues one
remote resolution rpc (with an empty table list): the issued-request
list is not empty. -/
theorem C1_counterexample :
    ¬ ((routeImpl [(['t'], ⟨['h'], 1⟩)] ⟨['d'], 2⟩
          (fun _ => Except.ok []) [['t']]).2.2.length = 0) := by
  decide

/-- **C1 (amended).** Every `route` call issues exactly one remote
resolution rpc whose request lists exactly the missed tables (those
requested and absent from the cache); when every requested table is
cached, that request's table list is empty, and if the rpc answers the
empty request with an empty route list the call returns the cached
endpoints with the cache unchanged. -/
theorem C1_route_issues_one_rpc_with_misses (cache : Cache)
    (default : Endpoint) (rpc : List Str → CResult (List RouteEntry))
    (tables : List Str) :
    ((routeImpl cache default rpc tables).2.2 =
      [(buildMisses cache tables 0 []).map Prod.fst])
    ∧ (∀ t, t ∈ (buildMisses cache tables 0 []).map Prod.fst ↔
        (t ∈ tables ∧ cacheGet cache t = none))
    ∧ ((∀ t ∈ tables, cacheGet cache t ≠ none) →
        (buildMisses cache tables 0 []).map Prod.fst = [] ∧
        (rpc [] = .ok [] →
          routeImpl cache default rpc tables =
            (.ok (initialTargets cache default tables), cache, [[]]))) := by
  refine ⟨?_, ?_, ?_⟩
  · cases h : rpc ((buildMisses cache tables 0 []).map Prod.fst) with
    | error e => simp only [routeImpl, h]
    | ok routes => simp only [routeImpl, h]
  · intro t
    rw [buildMisses_keys_mem]
    simp
  · intro hall
    have hempty : buildMisses cache tables 0 [] = [] :=
      buildMisses_all_hit cache tables 0 [] hall
    refine ⟨by rw [hempty]; rfl, ?_⟩
    intro hrpc
    simp only [routeImpl, hempty, List.map_nil, hrpc, fillRoutes]

/-- Closed witness for `C1_route_issues_one_rpc_with_misses`: table
`"t"` is cached, the rpc is called once with the empty list and the
cached endpoint is returned. -/
theorem C1_witness :
    routeImpl [(['t'], ⟨['h'], 1⟩)] ⟨['d'], 2⟩
        (fun _ => Except.ok []) [['t']] =
      (.ok [some ⟨['h'], 1⟩], [(['t'], ⟨['h'], 1⟩)], [[]]) :=
  ((C1_route_issues_one_rpc_with_misses [(['t'], ⟨['h'], 1⟩)] ⟨['d'], 2⟩
      (fun _ => Except.ok []) [['t']]).2.2 (by decide)).2 rfl

/-- **C9.** A successful `RouterImpl::route` call returns exactly one
slot per input table (in input order) and every slot is `some` endpoint;
consequently the query path's head slot is `some` whenever the table
list is non-empty, and the write path's unroutable partition is empty
for endpoints produced this way. -/
theorem C9_route_never_returns_none (cache : Cache) (default : Endpoint)
    (rpc : List Str → CResult (List RouteEntry)) (tables : List Str)
    (res : List (Option Endpoint)) (cache' : Cache) (reqs : List (List Str))
    (h : routeImpl cache default rpc tables = (.ok res, cache', reqs)) :
    res.length = tables.length
    ∧ (∀ x ∈ res, x.isSome)
    ∧ (tables ≠ [] → ∃ ep, res.headD none = some ep)
    ∧ (∀ (α : Type) (pgs : List (Str × α)), (partitionWrite pgs res).2 = []) := by
  have hmain : res.length = tables.length ∧ ∀ x ∈ res, x.isSome := by
    cases hrpc : rpc ((buildMisses cache tables 0 []).map Prod.fst) with
    | error e =>
      rw [routeImpl] at h
      rw [hrpc] at h
      simp at h
    | ok routes =>
      obtain ⟨r, c0, hfr⟩ :
          ∃ r c0, fillRoutes (buildMisses cache tables 0 []) routes
            (initialTargets cache default tables) cache = (r, c0) :=
        ⟨_, _, rfl⟩
      rw [routeImpl_rpc_ok cache default rpc tables routes hrpc, hfr] at h
      simp only [Prod.mk.injEq] at h
      obtain ⟨h1, h2, -⟩ := h
      rw [h1, h2] at hfr
      have := fillRoutes_ok _ routes _ cache res cache' hfr
      exact ⟨this.1.trans (initialTargets_length cache default tables),
        this.2 (initialTargets_isSome cache default tables)⟩
  refine ⟨hmain.1, hmain.2, ?_, ?_⟩
  · intro hne
    cases res with
    | nil =>
      cases tables with
      | nil => exact absurd rfl hne
      | cons a b => simp at hmain
    | cons x xs =>
      have := hmain.2 x (List.mem_cons_self _ _)
      cases x with
      | none => simp at this
      | some ep => exact ⟨ep, rfl⟩
  · intro α pgs
    exact partitionWrite_no_unroutable pgs res hmain.2

/-- Closed witness for `C9_route_never_returns_none`: two tables, one
cached and one resolved remotely. -/
theorem C9_witness :
    ((routeImpl [(['a'], ⟨['h'], 5⟩)] ⟨['d'], 2⟩
        (fun _ => Except.ok [⟨['b'], some ⟨['g'], 7⟩⟩]) [['a'], ['b']]).1 =
      Except.ok [some (⟨['h'], 5⟩ : Endpoint), some ⟨['g'], 7⟩])
    ∧ ([some (⟨['h'], 5⟩ : Endpoint), some ⟨['g'], 7⟩]).length =
        [['a'], ['b']].length
    ∧ (∀ x ∈ ([some (⟨['h'], 5⟩ : Endpoint), some ⟨['g'], 7⟩]), x.isSome) := by
  have := C9_route_never_returns_none [(['a'], ⟨['h'], 5⟩)] ⟨['d'], 2⟩
    (fun _ => Except.ok [⟨['b'], some ⟨['g'], 7⟩⟩]) [['a'], ['b']]
    [some ⟨['h'], 5⟩, some ⟨['g'], 7⟩]
    [(['a'], ⟨['h'], 5⟩), (['b'], ⟨['g'], 7⟩)] [[['b']]] rfl
  exact ⟨rfl, this.1, this.2.1⟩

/-- **C8.** In the query path, once an endpoint has been resolved for
the request, a failing query rpc causes `Router::evict` to be called
with all of the original tables and the error to be propagated, while a
successful rpc returns the response unchanged with no eviction. -/
theorem C8_query_evicts_exactly_on_failure {α : Type}
    (ctxDb defaultDb : Option Str) (tables : List Str)
    (route : List Str → CResult (List (Option Endpoint)))
    (eps : List (Option Endpoint)) (ep : Endpoint) (db : Option Str)
    (hne : tables ≠ [])
    (hdb : resolveDatabase ctxDb defaultDb = .ok db)
    (hroute : route tables = .ok eps)
    (hep : eps.headD none = some ep) :
    (∀ e : CError,
      sqlQueryRB (α := α) ctxDb defaultDb tables (.ok ()) route (.error e) =
        (.error e, ⟨1, [tables], 1, [tables]⟩))
    ∧ (∀ r : α,
      sqlQueryRB ctxDb defaultDb tables (.ok ()) route (.ok r) =
        (.ok r, ⟨1, [tables], 1, []⟩)) := by
  cases tables with
  | nil => exact absurd rfl hne
  | cons t ts =>
    constructor
    · intro e
      simp only [sqlQueryRB, List.isEmpty_cons, Bool.false_eq_true, if_false,
        hdb, hroute, hep]
    · intro r
      simp only [sqlQueryRB, List.isEmpty_cons, Bool.false_eq_true, if_false,
        hdb, hroute, hep]

/-- Closed witness for `C8_query_evicts_exactly_on_failure`. -/
theorem C8_witness :
    sqlQueryRB (α := Nat) (some ['d']) none [['t']] (.ok ())
        (fun _ => Except.ok [some ⟨['h'], 1⟩]) (.error .rpc) =
      (.error .rpc, ⟨1, [[['t']]], 1, [[['t']]]⟩) ∧
    sqlQueryRB (α := Nat) (some ['d']) none [['t']] (.ok ())
        (fun _ => Except.ok [some ⟨['h'], 1⟩]) (.ok 7) =
      (.ok 7, ⟨1, [[['t']]], 1, []⟩) :=
  ⟨(C8_query_evicts_exactly_on_failure (some ['d']) none [['t']]
      (fun _ => Except.ok [some ⟨['h'], 1⟩]) [some ⟨['h'], 1⟩] ⟨['h'], 1⟩
      (some ['d']) (by decide) rfl rfl rfl).1 .rpc,
   (C8_query_evicts_exactly_on_failure (some ['d']) none [['t']]
      (fun _ => Except.ok [some ⟨['h'], 1⟩]) [some ⟨['h'], 1⟩] ⟨['h'], 1⟩
      (some ['d']) (by decide) rfl rfl rfl).2 7⟩

/-- **C10.** `Endpoint::from_str` succeeds exactly on strings with a
`':'` whose part before the last `':'` is non-empty and whose part after
the last `':'` parses as a `u32` no greater than `65535`; on success the
address is everything before the last `':'` and the port is the parsed
suffix — in particular `"a:b:80"` parses to address `"a:b"`, port `80`. -/
theorem C10_endpoint_from_str (s : Str) :
    (∀ e : Endpoint, endpointFromStr s = some e ↔
      ∃ pre suf, s = pre ++ ':' :: suf ∧ ':' ∉ suf ∧ pre ≠ [] ∧
        parseU32 suf = some e.port ∧ e.port ≤ 65535 ∧ e.addr = pre)
    ∧ endpointFromStr "a:b:80".data = some ⟨"a:b".data, 80⟩ := by
  refine ⟨fun e => ⟨?_, ?_⟩, by rfl⟩
  · intro h
    unfold endpointFromStr at h
    cases hsp : rsplitOnce s ':' with
    | none => rw [hsp] at h; cases h
    | some ab =>
      obtain ⟨pre, suf⟩ := ab
      rw [hsp] at h
      dsimp only at h
      by_cases hpre : pre.isEmpty
      · rw [if_pos hpre] at h; cases h
      · rw [if_neg hpre] at h
        cases hp : parseU32 suf with
        | none => rw [hp] at h; cases h
        | some port =>
          rw [hp] at h
          dsimp only at h
          by_cases hgt : port > 65535
          · rw [if_pos (by exact_mod_cast hgt)] at h; cases h
          · rw [if_neg (by exact_mod_cast hgt)] at h
            injection h with h
            have hs := rsplitOnce_sound ':' s pre suf hsp
            refine ⟨pre, suf, hs.1, hs.2, ?_, ?_, ?_, ?_⟩
            · intro hnil
              rw [hnil] at hpre
              exact hpre rfl
            · rw [← h]
              exact hp
            · rw [← h]
              exact Nat.le_of_not_lt hgt
            · rw [← h]
  · rintro ⟨pre, suf, rfl, hnotin, hpre, hparse, hle, haddr⟩
    unfold endpointFromStr
    rw [rsplitOnce_complete ':' pre suf hnotin]
    dsimp only
    rw [if_neg (show ¬(pre.isEmpty = true) by
      cases pre with
      | nil => exact absurd rfl hpre
      | cons a b => simp)]
    rw [hparse]
    dsimp only
    rw [if_neg (show ¬(e.port > 65535) by omega)]
    cases e with
    | mk addr port =>
      simp only at haddr hle hparse ⊢
      rw [haddr]

theorem foldl_aggStep_fst (l : List (List Str × CResult WriteResponse)) :
    ∀ acc : Nat × Nat × List Str × List (List Str × CError),
      (l.foldl aggStep acc).1 =
        if l.filterMap okCaseSucc = [] then acc.1
        else (acc.1 + (l.filterMap okCaseSucc).sum) % U32MOD := by
  induction l with
  | nil => intro acc; simp
  | cons p rest ih =>
    intro acc
    rw [List.foldl_cons, ih]
    cases hp : p.2 with
    | ok r =>
      have hs : okCaseSucc p = some r.success := by simp [okCaseSucc, hp]
      have hstep : (aggStep acc p).1 = (acc.1 + r.success) % U32MOD := by
        simp [aggStep, hp]
      simp only [List.filterMap_cons, hs, hstep]
      by_cases hrest : rest.filterMap okCaseSucc = []
      · simp [hrest]
      · simp only [hrest, if_neg (List.cons_ne_nil _ _), List.sum_cons,
          Nat.mod_add_mod]
        rw [Nat.add_assoc]
        simp
    | error e =>
      have hs : okCaseSucc p = none := by simp [okCaseSucc, hp]
      have hstep : (aggStep acc p).1 = acc.1 := by simp [aggStep, hp]
      simp only [List.filterMap_cons, hs, hstep]

theorem foldl_aggStep_failed (l : List (List Str × CResult WriteResponse)) :
    ∀ acc : Nat × Nat × List Str × List (List Str × CError),
      (l.foldl aggStep acc).2.1 =
        if l.filterMap okCaseFail = [] then acc.2.1
        else (acc.2.1 + (l.filterMap okCaseFail).sum) % U32MOD := by
  induction l with
  | nil => intro acc; simp
  | cons p rest ih =>
    intro acc
    rw [List.foldl_cons, ih]
    cases hp : p.2 with
    | ok r =>
      have hs : okCaseFail p = some r.failed := by simp [okCaseFail, hp]
      have hstep : (aggStep acc p).2.1 = (acc.2.1 + r.failed) % U32MOD := by
        simp [aggStep, hp]
      simp only [List.filterMap_cons, hs, hstep]
      by_cases hrest : rest.filterMap okCaseFail = []
      · simp [hrest]
      · simp only [hrest, if_neg (List.cons_ne_nil _ _), List.sum_cons,
          Nat.mod_add_mod]
        rw [Nat.add_assoc]
        simp
    | error e =>
      have hs : okCaseFail p = none := by simp [okCaseFail, hp]
      have hstep : (aggStep acc p).2.1 = acc.2.1 := by simp [aggStep, hp]
      simp only [List.filterMap_cons, hs, hstep]

theorem foldl_aggStep_okTables (l : List (List Str × CResult WriteResponse)) :
    ∀ acc : Nat × Nat × List Str × List (List Str × CError),
      (l.foldl aggStep acc).2.2.1 =
        acc.2.2.1 ++ (l.filterMap okCaseTables).flatten := by
  induction l with
  | nil => intro acc; simp
  | cons p rest ih =>
    intro acc
    rw [List.foldl_cons, ih]
    cases hp : p.2 with
    | ok r =>
      have hs : okCaseTables p = some p.1 := by simp [okCaseTables, hp]
      have hstep : (aggStep acc p).2.2.1 = acc.2.2.1 ++ p.1 := by
        simp [aggStep, hp]
      simp [List.filterMap_cons, hs, hstep, List.append_assoc]
    | error e =>
      have hs : okCaseTables p = none := by simp [okCaseTables, hp]
      have hstep : (aggStep acc p).2.2.1 = acc.2.2.1 := by simp [aggStep, hp]
      simp [List.filterMap_cons, hs, hstep]

theorem foldl_aggStep_errors (l : List (List Str × CResult WriteResponse)) :
    ∀ acc : Nat × Nat × List Str × List (List Str × CError),
      (l.foldl aggStep acc).2.2.2 = acc.2.2.2 ++ l.filterMap errCase := by
  induction l with
  | nil => intro acc; simp
  | cons p rest ih =>
    intro acc
    rw [List.foldl_cons, ih]
    cases hp : p.2 with
    | ok r =>
      have hs : errCase p = none := by simp [errCase, hp]
      have hstep : (aggStep acc p).2.2.2 = acc.2.2.2 := by simp [aggStep, hp]
      simp [List.filterMap_cons, hs, hstep]
    | error e =>
      have hs : errCase p = some (p.1, e) := by simp [errCase, hp]
      have hstep : (aggStep acc p).2.2.2 = acc.2.2.2 ++ [(p.1, e)] := by
        simp [aggStep, hp]
      simp [List.filterMap_cons, hs, hstep, List.append_assoc]

theorem fromPairs_success (l : List (List Str × CResult WriteResponse)) :
    (fromPairs l).ok.2.success =
      if l.filterMap okCaseSucc = [] then 0
      else (l.filterMap okCaseSucc).sum % U32MOD := by
  have := foldl_aggStep_fst l (0, 0, [], [])
  simp only [fromPairs]
  rw [this]
  by_cases h : l.filterMap okCaseSucc = [] <;> simp [h]

theorem fromPairs_failed (l : List (List Str × CResult WriteResponse)) :
    (fromPairs l).ok.2.failed =
      if l.filterMap okCaseFail = [] then 0
      else (l.filterMap okCaseFail).sum % U32MOD := by
  have := foldl_aggStep_failed l (0, 0, [], [])
  simp only [fromPairs]
  rw [this]
  by_cases h : l.filterMap okCaseFail = [] <;> simp [h]

theorem fromPairs_okTables (l : List (List Str × CResult WriteResponse)) :
    (fromPairs l).ok.1 = (l.filterMap okCaseTables).flatten := by
  have := foldl_aggStep_okTables l (0, 0, [], [])
  simp only [fromPairs]
  rw [this]
  simp

theorem fromPairs_errors (l : List (List Str × CResult WriteResponse)) :
    (fromPairs l).errors = l.filterMap errCase := by
  have := foldl_aggStep_errors l (0, 0, [], [])
  simp only [fromPairs]
  rw [this]
  simp

/-- **C4.** Aggregation of `(table-names, outcome)` pairs into a
`RouteBasedWriteError` is order-independent and lossless: any
permutation yields the same summed success count, the same summed failed
count, a permutation of the successful pairs' table names and a
permutation of the error entries; the `errors` field is exactly the
failed pairs; `all_ok` holds iff no outcome is an error. -/
theorem C4_aggregation_order_independent
    (l l2 : List (List Str × CResult WriteResponse))
    (hperm : List.Perm l l2) :
    (fromPairs l).ok.2.success = (fromPairs l2).ok.2.success
    ∧ (fromPairs l).ok.2.failed = (fromPairs l2).ok.2.failed
    ∧ List.Perm (fromPairs l).ok.1 (fromPairs l2).ok.1
    ∧ List.Perm (fromPairs l).errors (fromPairs l2).errors
    ∧ (fromPairs l).errors = l.filterMap errCase
    ∧ (allOk (fromPairs l) = true ↔ ∀ p ∈ l, ∃ r, p.2 = Except.ok r) := by
  have hps : List.Perm (l.filterMap okCaseSucc) (l2.filterMap okCaseSucc) :=
    hperm.filterMap okCaseSucc
  have hpf : List.Perm (l.filterMap okCaseFail) (l2.filterMap okCaseFail) :=
    hperm.filterMap okCaseFail
  have hpt : List.Perm (l.filterMap okCaseTables)
      (l2.filterMap okCaseTables) := hperm.filterMap okCaseTables
  have hpe : List.Perm (l.filterMap errCase) (l2.filterMap errCase) :=
    hperm.filterMap errCase
  refine ⟨?_, ?_, ?_, ?_, fromPairs_errors l, ?_⟩
  · rw [fromPairs_success, fromPairs_success, hps.sum_eq]
    by_cases h : l.filterMap okCaseSucc = []
    · rw [if_pos h, if_pos (List.eq_nil_of_length_eq_zero
        (by rw [← hps.length_eq, h]; rfl))]
    · rw [if_neg h, if_neg (fun h2 => h (List.eq_nil_of_length_eq_zero
        (by rw [hps.length_eq, h2]; rfl)))]
  · rw [fromPairs_failed, fromPairs_failed, hpf.sum_eq]
    by_cases h : l.filterMap okCaseFail = []
    · rw [if_pos h, if_pos (List.eq_nil_of_length_eq_zero
        (by rw [← hpf.length_eq, h]; rfl))]
    · rw [if_neg h, if_neg (fun h2 => h (List.eq_nil_of_length_eq_zero
        (by rw [hpf.length_eq, h2]; rfl)))]
  · rw [fromPairs_okTables, fromPairs_okTables]
    exact hpt.flatten
  · rw [fromPairs_errors, fromPairs_errors]
    exact hpe
  · rw [allOk, fromPairs_errors]
    rw [List.isEmpty_iff, List.filterMap_eq_nil_iff]
    constructor
    · intro h p hp
      have := h p hp
      cases hres : p.2 with
      | ok r => exact ⟨r, rfl⟩
      | error e => rw [errCase, hres] at this; cases this
    · rintro h p hp
      obtain ⟨r, hr⟩ := h p hp
      rw [errCase, hr]

/-- Closed witness for `C4_aggregation_order_independent`, applying it
to a two-element list and its transposition. -/
theorem C4_witness :
    (fromPairs [([['a']], Except.ok (⟨3, 1⟩ : WriteResponse)),
        ([['b']], Except.error CError.rpc)]).ok.2.success =
      (fromPairs [([['b']], Except.error CError.rpc),
        ([['a']], Except.ok (⟨3, 1⟩ : WriteResponse))]).ok.2.success
    ∧ (fromPairs [([['a']], Except.ok (⟨3, 1⟩ : WriteResponse)),
        ([['b']], Except.error CError.rpc)]).errors =
      [([['a']], Except.ok (⟨3, 1⟩ : WriteResponse)),
        ([['b']], Except.error CError.rpc)].filterMap errCase :=
  ⟨(C4_aggregation_order_independent
      [([['a']], Except.ok (⟨3, 1⟩ : WriteResponse)), ([['b']], Except.error CError.rpc)]
      [([['b']], Except.error CError.rpc), ([['a']], Except.ok (⟨3, 1⟩ : WriteResponse))]
      (List.Perm.swap ([['b']], Except.error CError.rpc)
        ([['a']], Except.ok (⟨3, 1⟩ : WriteResponse)) [])).1,
   (C4_aggregation_order_independent
      [([['a']], Except.ok (⟨3, 1⟩ : WriteResponse)), ([['b']], Except.error CError.rpc)]
      [([['b']], Except.error CError.rpc), ([['a']], Except.ok (⟨3, 1⟩ : WriteResponse))]
      (List.Perm.swap ([['b']], Except.error CError.rpc)
        ([['a']], Except.ok (⟨3, 1⟩ : WriteResponse)) [])).2.2.2.2.1⟩

theorem cacheGet_insert_ne (c : Cache) (k t : Str) (v : Endpoint)
    (h : k ≠ t) : cacheGet (cacheInsert c k v) t = cacheGet c t := by
  induction c with
  | nil => simp [cacheInsert, cacheGet, h]
  | cons p rest ih =>
    obtain ⟨k', v'⟩ := p
    by_cases hk : k' = k
    · subst hk
      simp [cacheInsert, cacheGet, h]
    · simp only [cacheInsert, beq_iff_eq, if_neg hk, cacheGet]
      by_cases hk2 : k' = t
      · simp [hk2]
      · simp only [beq_iff_eq, if_neg hk2]
        exact ih

theorem missGet_mem (m : MissMap) (k : Str) :
    ∀ v, missGet m k = some v → (k, v) ∈ m := by
  induction m with
  | nil => intro v h; cases h
  | cons p rest ih =>
    intro v h
    obtain ⟨k', v'⟩ := p
    simp only [missGet] at h
    by_cases hk : k' = k
    · rw [if_pos (by simp [hk])] at h
      injection h with h
      subst hk
      subst h
      exact List.mem_cons_self _ _
    · rw [if_neg (by simp [hk])] at h
      exact List.mem_cons_of_mem _ (ih v h)

theorem missInsert_mem (m : MissMap) (k0 : Str) (v0 : Nat) (k : Str)
    (v : Nat) (h : (k, v) ∈ missInsert m k0 v0) :
    (k, v) ∈ m ∨ (k = k0 ∧ v = v0) := by
  induction m with
  | nil =>
    simp only [missInsert, List.mem_singleton, Prod.mk.injEq] at h
    exact Or.inr h
  | cons p rest ih =>
    obtain ⟨k', v'⟩ := p
    by_cases hk : k' = k0
    · rw [missInsert, if_pos (by simp [hk])] at h
      rcases List.mem_cons.mp h with h | h
      · simp only [Prod.mk.injEq] at h
        exact Or.inr ⟨hk ▸ h.1, h.2⟩
      · exact Or.inl (List.mem_cons_of_mem _ h)
    · rw [missInsert, if_neg (by simp [hk])] at h
      rcases List.mem_cons.mp h with h | h
      · exact Or.inl (h ▸ List.mem_cons_self _ _)
      · rcases ih h with h | h
        · exact Or.inl (List.mem_cons_of_mem _ h)
        · exact Or.inr h

theorem buildMisses_mem_pair (cache : Cache) :
    ∀ (ts : List Str) (n : Nat) (m : MissMap) (k : Str) (v : Nat),
      (k, v) ∈ buildMisses cache ts n m →
      (k, v) ∈ m ∨ ∃ j, ts[j]? = some k ∧ v = n + j := by
  intro ts
  induction ts with
  | nil => intro n m k v h; exact Or.inl h
  | cons hd rest ih =>
    intro n m k v h
    simp only [buildMisses] at h
    cases hhd : cacheGet cache hd with
    | some ep =>
      rw [hhd] at h
      rcases ih (n + 1) m k v h with h | ⟨j, hj, hv⟩
      · exact Or.inl h
      · exact Or.inr ⟨j + 1, by simpa using hj, by omega⟩
    | none =>
      rw [hhd] at h
      rcases ih (n + 1) (missInsert m hd n) k v h with h | ⟨j, hj, hv⟩
      · rcases missInsert_mem m hd n k v h with h | ⟨rfl, rfl⟩
        · exact Or.inl h
        · exact Or.inr ⟨0, by simp, by omega⟩
      · exact Or.inr ⟨j + 1, by simpa using hj, by omega⟩

theorem fillRoutes_cacheGet_not_routed (misses : MissMap) (t : Str) :
    ∀ (routes : List RouteEntry) (tgt : List (Option Endpoint)) (c : Cache)
      res c', fillRoutes misses routes tgt c = (res, c') →
      (∀ r ∈ routes, r.table = t → r.endpoint = none) →
      cacheGet c' t = cacheGet c t := by
  intro routes
  induction routes with
  | nil =>
    intro tgt c res c' h _
    simp only [fillRoutes, Prod.mk.injEq] at h
    rw [← h.2]
  | cons r rest ih =>
    intro tgt c res c' h hno
    simp only [fillRoutes] at h
    cases hre : r.endpoint with
    | none =>
      rw [hre] at h
      exact ih tgt c res c' h fun q hq => hno q (List.mem_cons_of_mem _ hq)
    | some ep =>
      rw [hre] at h
      have hrt : r.table ≠ t := by
        intro heq
        rw [hno r (List.mem_cons_self _ _) heq] at hre
        cases hre
      cases hmg : missGet misses r.table with
      | none =>
        rw [hmg] at h
        simp only [Prod.mk.injEq] at h
        rw [← h.2]
      | some idx =>
        rw [hmg] at h
        have := ih _ _ res c' h fun q hq => hno q (List.mem_cons_of_mem _ hq)
        rw [this, cacheGet_insert_ne c r.table t ep hrt]

theorem fillRoutes_get_not_routed (misses : MissMap) (i : Nat) :
    ∀ (routes : List RouteEntry) (tgt : List (Option Endpoint)) (c : Cache)
      res c', fillRoutes misses routes tgt c = (.ok res, c') →
      (∀ r ∈ routes, ∀ ep, r.endpoint = some ep →
        missGet misses r.table ≠ some i) →
      res[i]? = tgt[i]? := by
  intro routes
  induction routes with
  | nil =>
    intro tgt c res c' h _
    simp only [fillRoutes, Prod.mk.injEq, Except.ok.injEq] at h
    rw [h.1]
  | cons r rest ih =>
    intro tgt c res c' h hno
    simp only [fillRoutes] at h
    cases hre : r.endpoint with
    | none =>
      rw [hre] at h
      exact ih tgt c res c' h fun q hq => hno q (List.mem_cons_of_mem _ hq)
    | some ep =>
      rw [hre] at h
      cases hmg : missGet misses r.table with
      | none =>
        rw [hmg] at h
        simp at h
      | some idx =>
        rw [hmg] at h
        have hne : idx ≠ i := by
          intro heq
          exact hno r (List.mem_cons_self _ _) ep hre (heq ▸ hmg)
        have := ih _ _ res c' h fun q hq => hno q (List.mem_cons_of_mem _ hq)
        rw [this, List.getElem?_set_ne hne]

/-- **C6.** In a successful `route` call, a requested table that misses
the cache and for which the rpc response carries no endpoint (no entry
at all, or an entry without an endpoint) is resolved to the default
endpoint, and no cache entry is created for it. -/
theorem C6_absent_route_falls_back_to_default (cache : Cache)
    (default : Endpoint) (rpc : List Str → CResult (List RouteEntry))
    (tables : List Str) (routes : List RouteEntry)
    (res : List (Option Endpoint)) (cache' : Cache) (reqs : List (List Str))
    (t : Str) (i : Nat)
    (hmiss : cacheGet cache t = none)
    (hrpc : rpc ((buildMisses cache tables 0 []).map Prod.fst) = .ok routes)
    (hnoep : ∀ r ∈ routes, r.table = t → r.endpoint = none)
    (hrun : routeImpl cache default rpc tables = (.ok res, cache', reqs))
    (hidx : tables[i]? = some t) :
    res[i]? = some (some default) ∧ cacheGet cache' t = none := by
  obtain ⟨r0, c0, hfr⟩ :
      ∃ r0 c0, fillRoutes (buildMisses cache tables 0 []) routes
        (initialTargets cache default tables) cache = (r0, c0) :=
    ⟨_, _, rfl⟩
  rw [routeImpl_rpc_ok cache default rpc tables routes hrpc, hfr] at hrun
  simp only [Prod.mk.injEq] at hrun
  obtain ⟨h1, h2, -⟩ := hrun
  rw [h1, h2] at hfr
  constructor
  · have hget := fillRoutes_get_not_routed (buildMisses cache tables 0 []) i
      routes (initialTargets cache default tables) cache res cache' hfr ?_
    · rw [hget, initialTargets, List.getElem?_map, hidx, Option.map_some',
        hmiss]
    · intro r hr ep hep hmg
      have hpair := missGet_mem _ _ _ hmg
      rcases buildMisses_mem_pair cache tables 0 [] r.table i hpair with
        h | ⟨j, hj, hv⟩
      · cases h
      · have : j = i := by omega
        rw [this, hidx] at hj
        injection hj with hj
        rw [hnoep r hr hj.symm] at hep
        cases hep
  · rw [fillRoutes_cacheGet_not_routed (buildMisses cache tables 0 []) t
      routes (initialTargets cache default tables) cache (Except.ok res)
      cache' hfr hnoep]
    exact hmiss

/-- Closed witness for `C6_absent_route_falls_back_to_default`: an
uncached table whose lookup response is empty resolves to the default
endpoint and stays uncached. -/
theorem C6_witness :
    ([some (⟨['d'], 2⟩ : Endpoint)] : List (Option Endpoint))[0]? =
      some (some ⟨['d'], 2⟩)
    ∧ cacheGet [] ['t'] = none :=
  C6_absent_route_falls_back_to_default [] ⟨['d'], 2⟩
    (fun _ => Except.ok []) [['t']] [] [some ⟨['d'], 2⟩] [] [[['t']]]
    ['t'] 0 rfl rfl (fun r hr => absurd hr (List.not_mem_nil r)) rfl rfl

theorem perm_append_singleton_mid {β : Type} (A R : List β) (x : β) :
    List.Perm ((A ++ [x]) ++ R) ((A ++ R) ++ [x]) := by
  rw [List.append_assoc, List.append_assoc]
  exact List.Perm.append_left A List.perm_append_comm

theorem insertGroup_fresh {α : Type} (m : Str) (v : α) :
    ∀ g : List (Str × α), m ∉ g.map Prod.fst →
      insertGroup g m v = g ++ [(m, v)] := by
  intro g
  induction g with
  | nil => intro _; rfl
  | cons p rest ih =>
    intro hm
    obtain ⟨k, w⟩ := p
    simp only [List.map_cons, List.mem_cons] at hm
    rw [insertGroup, if_neg (by simp; exact fun h => hm (Or.inl h.symm)),
      List.cons_append, ih fun h => hm (Or.inr h)]

theorem insertGroup_key_self {α : Type} (m : Str) (v : α) :
    ∀ g : List (Str × α), m ∈ (insertGroup g m v).map Prod.fst := by
  intro g
  induction g with
  | nil => simp [insertGroup]
  | cons p rest ih =>
    obtain ⟨k, w⟩ := p
    by_cases hk : k = m
    · subst hk
      rw [insertGroup, if_pos (beq_self_eq_true k), List.map_cons]
      exact List.mem_cons_self _ _
    · simp only [insertGroup, beq_iff_eq, if_neg hk, List.map_cons,
        List.mem_cons]
      exact Or.inr ih

theorem insertGroup_key_mono {α : Type} (m : Str) (v : α) (t : Str) :
    ∀ g : List (Str × α), t ∈ g.map Prod.fst →
      t ∈ (insertGroup g m v).map Prod.fst := by
  intro g
  induction g with
  | nil => intro h; cases h
  | cons p rest ih =>
    intro ht
    obtain ⟨k, w⟩ := p
    simp only [List.map_cons, List.mem_cons] at ht
    by_cases hk : k = m
    · simp only [insertGroup, beq_iff_eq, if_pos hk, List.map_cons,
        List.mem_cons]
      rcases ht with h | h
      · exact Or.inl h
      · exact Or.inr h
    · simp only [insertGroup, beq_iff_eq, if_neg hk, List.map_cons,
        List.mem_cons]
      rcases ht with h | h
      · exact Or.inl h
      · exact Or.inr (ih h)

theorem partsTables_addToPartition {α : Type} (ep : Endpoint) (m : Str)
    (v : α) :
    ∀ parts : List (Endpoint × List (Str × α)), m ∉ partsTables parts →
      List.Perm (partsTables (addToPartition parts ep m v))
        (partsTables parts ++ [m]) := by
  intro parts
  induction parts with
  | nil =>
    intro _
    simp only [addToPartition, partsTables, List.map_cons, List.map_nil,
      List.flatten]
    exact List.Perm.refl _
  | cons p rest ih =>
    intro hm
    obtain ⟨e, g⟩ := p
    have hPT : partsTables ((e, g) :: rest) =
        g.map Prod.fst ++ partsTables rest := by
      rw [partsTables, List.map_cons, List.flatten_cons]
      rfl
    have hm' : m ∉ g.map Prod.fst ++ partsTables rest := by
      rw [← hPT]
      exact hm
    by_cases he : e = ep
    · rw [addToPartition, if_pos he,
        insertGroup_fresh m v g fun h => hm' (List.mem_append_left _ h)]
      have hL : partsTables ((e, g ++ [(m, v)]) :: rest) =
          (g.map Prod.fst ++ [m]) ++ partsTables rest := by
        simp [partsTables]
      have hR : partsTables ((e, g) :: rest) =
          g.map Prod.fst ++ partsTables rest := by
        simp [partsTables]
      rw [hL, hR]
      exact perm_append_singleton_mid (g.map Prod.fst) (partsTables rest) m
    · rw [addToPartition, if_neg he]
      have hL : partsTables ((e, g) :: addToPartition rest ep m v) =
          g.map Prod.fst ++ partsTables (addToPartition rest ep m v) := by
        simp [partsTables]
      have hR : partsTables ((e, g) :: rest) =
          g.map Prod.fst ++ partsTables rest := by
        simp [partsTables]
      rw [hL, hR, List.append_assoc]
      exact List.Perm.append_left _
        (ih fun h => hm' (List.mem_append_right _ h))

theorem addToPartition_self {α : Type} (ep : Endpoint) (m : Str) (v : α) :
    ∀ parts : List (Endpoint × List (Str × α)),
      ∃ g, (ep, g) ∈ addToPartition parts ep m v ∧ m ∈ g.map Prod.fst := by
  intro parts
  induction parts with
  | nil =>
    exact ⟨[(m, v)], List.mem_singleton.mpr rfl, by simp⟩
  | cons p rest ih =>
    obtain ⟨e, g⟩ := p
    by_cases he : e = ep
    · subst he
      rw [addToPartition, if_pos rfl]
      exact ⟨insertGroup g m v, List.mem_cons_self _ _,
        insertGroup_key_self m v g⟩
    · rw [addToPartition, if_neg he]
      obtain ⟨g2, hg2, hm⟩ := ih
      exact ⟨g2, List.mem_cons_of_mem _ hg2, hm⟩

theorem addToPartition_mono {α : Type} (ep' : Endpoint) (m' : Str) (v' : α)
    (ep : Endpoint) (t : Str) :
    ∀ (parts : List (Endpoint × List (Str × α))) (g : List (Str × α)),
      (ep, g) ∈ parts → t ∈ g.map Prod.fst →
      ∃ g2, (ep, g2) ∈ addToPartition parts ep' m' v' ∧
        t ∈ g2.map Prod.fst := by
  intro parts
  induction parts with
  | nil => intro g h _; cases h
  | cons p rest ih =>
    intro g hmem ht
    obtain ⟨e, g0⟩ := p
    rcases List.mem_cons.mp hmem with h | h
    · have he2 : ep = e ∧ g = g0 := by
        rw [Prod.mk.injEq] at h
        exact h
      obtain ⟨he2, hg2⟩ := he2
      subst he2
      subst hg2
      by_cases he : ep = ep'
      · rw [addToPartition, if_pos he]
        exact ⟨insertGroup g m' v', List.mem_cons_self _ _,
          insertGroup_key_mono m' v' t g ht⟩
      · rw [addToPartition, if_neg he]
        exact ⟨g, List.mem_cons_self _ _, ht⟩
    · by_cases he : e = ep'
      · rw [addToPartition, if_pos he]
        exact ⟨g, List.mem_cons_of_mem _ h, ht⟩
      · rw [addToPartition, if_neg he]
        obtain ⟨g2, hg2, ht2⟩ := ih g h ht
        exact ⟨g2, List.mem_cons_of_mem _ hg2, ht2⟩

theorem partitionFold_mono {α : Type} :
    ∀ (l : List (Option Endpoint × Str × α))
      (parts : List (Endpoint × List (Str × α))) (u : List Str)
      (ep : Endpoint) (g : List (Str × α)) (t : Str),
      (ep, g) ∈ parts → t ∈ g.map Prod.fst →
      ∃ g2, (ep, g2) ∈ (l.foldl partitionStep (parts, u)).1 ∧
        t ∈ g2.map Prod.fst := by
  intro l
  induction l with
  | nil => intro parts u ep g t hmem ht; exact ⟨g, hmem, ht⟩
  | cons p rest ih =>
    intro parts u ep g t hmem ht
    rw [List.foldl_cons]
    cases hp : p.1 with
    | some ep' =>
      have hstep : partitionStep (parts, u) p =
          (addToPartition parts ep' p.2.1 p.2.2, u) := by
        simp [partitionStep, hp]
      rw [hstep]
      obtain ⟨g2, hg2, ht2⟩ := addToPartition_mono ep' p.2.1 p.2.2 ep t
        parts g hmem ht
      exact ih _ u ep g2 t hg2 ht2
    | none =>
      have hstep : partitionStep (parts, u) p = (parts, u ++ [p.2.1]) := by
        simp [partitionStep, hp]
      rw [hstep]
      exact ih parts _ ep g t hmem ht

theorem partitionFold_elem {α : Type} :
    ∀ (l : List (Option Endpoint × Str × α))
      (parts : List (Endpoint × List (Str × α))) (u : List Str)
      (p : Option Endpoint × Str × α) (ep : Endpoint),
      p ∈ l → p.1 = some ep →
      ∃ g, (ep, g) ∈ (l.foldl partitionStep (parts, u)).1 ∧
        p.2.1 ∈ g.map Prod.fst := by
  intro l
  induction l with
  | nil => intro parts u p ep h _; cases h
  | cons q rest ih =>
    intro parts u p ep hmem hp
    rw [List.foldl_cons]
    rcases List.mem_cons.mp hmem with h | h
    · subst h
      have hstep : partitionStep (parts, u) p =
          (addToPartition parts ep p.2.1 p.2.2, u) := by
        simp [partitionStep, hp]
      rw [hstep]
      obtain ⟨g, hg, hm⟩ := addToPartition_self ep p.2.1 p.2.2 parts
      exact partitionFold_mono rest _ u ep g p.2.1 hg hm
    · cases hq : q.1 with
      | some ep' =>
        have hstep : partitionStep (parts, u) q =
            (addToPartition parts ep' q.2.1 q.2.2, u) := by
          simp [partitionStep, hq]
        rw [hstep]
        exact ih _ u p ep h hp
      | none =>
        have hstep : partitionStep (parts, u) q = (parts, u ++ [q.2.1]) := by
          simp [partitionStep, hq]
        rw [hstep]
        exact ih parts _ p ep h hp

theorem partitionFold_unroutable_eq {α : Type} :
    ∀ (l : List (Option Endpoint × Str × α))
      (parts : List (Endpoint × List (Str × α))) (u : List Str),
      (l.foldl partitionStep (parts, u)).2 =
        u ++ l.filterMap (fun p =>
          match p.1 with
          | none => some p.2.1
          | some _ => none) := by
  intro l
  induction l with
  | nil => intro parts u; simp
  | cons p rest ih =>
    intro parts u
    rw [List.foldl_cons]
    cases hp : p.1 with
    | some ep =>
      have hstep : partitionStep (parts, u) p =
          (addToPartition parts ep p.2.1 p.2.2, u) := by
        simp [partitionStep, hp]
      rw [hstep, ih, List.filterMap_cons, hp]
    | none =>
      have hstep : partitionStep (parts, u) p = (parts, u ++ [p.2.1]) := by
        simp [partitionStep, hp]
      rw [hstep, ih, List.filterMap_cons, hp, List.append_assoc,
        List.singleton_append]

theorem partitionFold_perm {α : Type} :
    ∀ (l : List (Option Endpoint × Str × α))
      (parts : List (Endpoint × List (Str × α))) (u : List Str),
      (l.map fun p => p.2.1).Nodup →
      (∀ t ∈ partsTables parts, t ∉ l.map fun p => p.2.1) →
      List.Perm
        (partsTables (l.foldl partitionStep (parts, u)).1 ++
          (l.foldl partitionStep (parts, u)).2)
        ((partsTables parts ++ u) ++ l.map fun p => p.2.1) := by
  intro l
  induction l with
  | nil =>
    intro parts u _ _
    simp only [List.foldl_nil, List.map_nil, List.append_nil]
    exact List.Perm.refl _
  | cons p rest ih =>
    intro parts u hnd hfresh
    rw [List.map_cons] at hnd hfresh
    have hnd2 := List.nodup_cons.mp hnd
    rw [List.foldl_cons]
    cases hp : p.1 with
    | some ep =>
      have hstep : partitionStep (parts, u) p =
          (addToPartition parts ep p.2.1 p.2.2, u) := by
        simp [partitionStep, hp]
      rw [hstep]
      have hmP : p.2.1 ∉ partsTables parts := by
        intro hmem
        exact hfresh p.2.1 hmem (List.mem_cons_self _ _)
      have hPperm := partsTables_addToPartition ep p.2.1 p.2.2 parts hmP
      have hfresh2 : ∀ t ∈ partsTables (addToPartition parts ep p.2.1 p.2.2),
          t ∉ rest.map fun q => q.2.1 := by
        intro t ht hc
        rcases List.mem_append.mp (hPperm.mem_iff.mp ht) with h | h
        · exact hfresh t h (List.mem_cons_of_mem _ hc)
        · rw [List.mem_singleton] at h
          exact hnd2.1 (h ▸ hc)
      have hrec := ih (addToPartition parts ep p.2.1 p.2.2) u hnd2.2 hfresh2
      refine hrec.trans ?_
      refine (List.Perm.append_right (rest.map fun q => q.2.1)
        (List.Perm.append_right u hPperm)).trans ?_
      refine (List.Perm.append_right (rest.map fun q => q.2.1)
        (perm_append_singleton_mid (partsTables parts) u p.2.1)).trans ?_
      rw [List.map_cons, List.append_assoc, List.singleton_append]
    | none =>
      have hstep : partitionStep (parts, u) p = (parts, u ++ [p.2.1]) := by
        simp [partitionStep, hp]
      rw [hstep]
      have hfresh2 : ∀ t ∈ partsTables parts,
          t ∉ rest.map fun q => q.2.1 := by
        intro t ht hc
        exact hfresh t ht (List.mem_cons_of_mem _ hc)
      have hrec := ih parts (u ++ [p.2.1]) hnd2.2 hfresh2
      refine hrec.trans ?_
      rw [List.map_cons, ← List.append_assoc, List.append_assoc,
        List.singleton_append]

theorem zip_snd_fst_keys {α : Type} :
    ∀ (eps : List (Option Endpoint)) (pgs : List (Str × α)),
      eps.length = pgs.length →
      ((eps.zip pgs).map fun p => p.2.1) = pgs.map Prod.fst := by
  intro eps
  induction eps with
  | nil =>
    intro pgs h
    cases pgs with
    | nil => rfl
    | cons q qs => simp at h
  | cons e rest ih =>
    intro pgs h
    cases pgs with
    | nil => simp at h
    | cons q qs =>
      simp only [List.zip_cons_cons, List.map_cons]
      rw [ih qs (by simpa using h)]

theorem zip_fst_parts {α β : Type} :
    ∀ (l1 : List α) (l2 : List β), l1.length = l2.length →
      (l1.zip l2).map Prod.fst = l1 := by
  intro l1
  induction l1 with
  | nil => intro l2 _; rfl
  | cons a rest ih =>
    intro l2 h
    cases l2 with
    | nil => simp at h
    | cons b bs =>
      simp only [List.zip_cons_cons, List.map_cons]
      rw [ih bs (by simpa using h)]

theorem tablesResultPairs_fst_flatten {α : Type}
    (parts : List (Endpoint × List (Str × α))) (unroutable : List Str)
    (results : List (CResult WriteResponse))
    (hres : results.length = parts.length) :
    ((tablesResultPairs parts unroutable results).map Prod.fst).flatten =
      partsTables parts ++ unroutable := by
  rw [tablesResultPairs, List.map_append, List.flatten_append]
  have h1 : (((parts.zip results).map fun pr =>
      (pr.1.2.map Prod.fst, pr.2)).map Prod.fst).flatten =
      partsTables parts := by
    rw [List.map_map]
    have : ((parts.zip results).map fun pr => pr.1.2.map Prod.fst) =
        ((parts.zip results).map Prod.fst).map fun q => q.2.map Prod.fst := by
      rw [List.map_map]
      rfl
    rw [show (Prod.fst ∘ fun pr :
        (Endpoint × List (Str × α)) × CResult WriteResponse =>
        (pr.1.2.map Prod.fst, pr.2)) = fun pr => pr.1.2.map Prod.fst from
        rfl, this, zip_fst_parts parts results hres.symm, partsTables]
  rw [h1]
  by_cases h : unroutable.isEmpty
  · rw [if_pos h, List.isEmpty_iff.mp h]
    rfl
  · rw [if_neg h]
    simp

theorem tablesResultPairs_length {α : Type}
    (parts : List (Endpoint × List (Str × α))) (unroutable : List Str)
    (results : List (CResult WriteResponse))
    (hres : results.length = parts.length) :
    (tablesResultPairs parts unroutable results).length =
      parts.length + (if unroutable.isEmpty then 0 else 1) := by
  rw [tablesResultPairs, List.length_append, List.length_map,
    List.length_zip, hres, Nat.min_self]
  by_cases h : unroutable.isEmpty <;> simp [h]

theorem ok_err_tables_perm (l : List (List Str × CResult WriteResponse)) :
    List.Perm
      ((l.filterMap okCaseTables).flatten ++
        ((l.filterMap errCase).map Prod.fst).flatten)
      ((l.map Prod.fst).flatten) := by
  induction l with
  | nil => exact List.Perm.refl _
  | cons p rest ih =>
    cases hp : p.2 with
    | ok r =>
      have ho : okCaseTables p = some p.1 := by simp [okCaseTables, hp]
      have he : errCase p = none := by simp [errCase, hp]
      simp only [List.filterMap_cons, ho, he, List.flatten_cons,
        List.map_cons, List.append_assoc]
      exact List.Perm.append_left p.1 ih
    | error e =>
      have ho : okCaseTables p = none := by simp [okCaseTables, hp]
      have he : errCase p = some (p.1, e) := by simp [errCase, hp]
      simp only [List.filterMap_cons, ho, he, List.flatten_cons,
        List.map_cons]
      have h1 : List.Perm
          ((rest.filterMap okCaseTables).flatten ++
            (p.1 ++ ((rest.filterMap errCase).map Prod.fst).flatten))
          (p.1 ++ ((rest.filterMap okCaseTables).flatten ++
            ((rest.filterMap errCase).map Prod.fst).flatten)) := by
        rw [← List.append_assoc, ← List.append_assoc]
        exact List.Perm.append_right _ List.perm_append_comm
      exact h1.trans (List.Perm.append_left p.1 ih)

/-- **C2.** Write partitioning and aggregation lose and duplicate
nothing: with one endpoint slot per (distinct) table of the request,
the partitions' tables together with the unroutable bucket are a
permutation of the request's tables; each table with endpoint `ep`
lands in `ep`'s partition and each endpointless table in the unroutable
bucket; the `tables_result_pairs` list holds one entry per dispatched
partition plus the unroutable entry exactly when that bucket is
non-empty, its table groups again a permutation of the request's
tables; and after aggregation the ok tables plus the error entries'
tables are still a permutation of the request's tables. -/
theorem C2_write_partitioning {α : Type} (pgs : List (Str × α))
    (endpoints : List (Option Endpoint))
    (results : List (CResult WriteResponse))
    (hnd : (pgs.map Prod.fst).Nodup)
    (hlen : endpoints.length = pgs.length)
    (hres : results.length = (partitionWrite pgs endpoints).1.length) :
    List.Perm (partsTables (partitionWrite pgs endpoints).1 ++
      (partitionWrite pgs endpoints).2) (pgs.map Prod.fst)
    ∧ (∀ (i : Nat) (ep : Endpoint) (t : Str),
        endpoints[i]? = some (some ep) → (pgs.map Prod.fst)[i]? = some t →
        ∃ g, (ep, g) ∈ (partitionWrite pgs endpoints).1 ∧
          t ∈ g.map Prod.fst)
    ∧ (∀ (i : Nat) (t : Str),
        endpoints[i]? = some none → (pgs.map Prod.fst)[i]? = some t →
        t ∈ (partitionWrite pgs endpoints).2)
    ∧ (tablesResultPairs (partitionWrite pgs endpoints).1
        (partitionWrite pgs endpoints).2 results).length =
      (partitionWrite pgs endpoints).1.length +
        (if (partitionWrite pgs endpoints).2.isEmpty then 0 else 1)
    ∧ List.Perm ((tablesResultPairs (partitionWrite pgs endpoints).1
        (partitionWrite pgs endpoints).2 results).map Prod.fst).flatten
        (pgs.map Prod.fst)
    ∧ List.Perm
        ((fromPairs (tablesResultPairs (partitionWrite pgs endpoints).1
          (partitionWrite pgs endpoints).2 results)).ok.1 ++
          (((fromPairs (tablesResultPairs (partitionWrite pgs endpoints).1
            (partitionWrite pgs endpoints).2 results)).errors.map
              Prod.fst).flatten))
        (pgs.map Prod.fst) := by
  have hkeys := zip_snd_fst_keys endpoints pgs hlen
  have hperm1 : List.Perm (partsTables (partitionWrite pgs endpoints).1 ++
      (partitionWrite pgs endpoints).2) (pgs.map Prod.fst) := by
    rw [partitionWrite]
    have := partitionFold_perm (endpoints.zip pgs) [] []
      (by rw [hkeys]; exact hnd)
      (fun t ht => absurd ht (List.not_mem_nil t))
    rw [hkeys] at this
    simpa using this
  have hpairs_flatten :
      ((tablesResultPairs (partitionWrite pgs endpoints).1
        (partitionWrite pgs endpoints).2 results).map Prod.fst).flatten =
      partsTables (partitionWrite pgs endpoints).1 ++
        (partitionWrite pgs endpoints).2 :=
    tablesResultPairs_fst_flatten _ _ results hres
  refine ⟨hperm1, ?_, ?_, tablesResultPairs_length _ _ results hres, ?_, ?_⟩
  · intro i ep t hep hkey
    rw [List.getElem?_map] at hkey
    obtain ⟨pr, hpr, hprt⟩ := Option.map_eq_some'.mp hkey
    have hzip : (endpoints.zip pgs)[i]? = some (some ep, pr) :=
      List.getElem?_zip_eq_some.mpr ⟨hep, hpr⟩
    have hmem := List.getElem?_mem hzip
    rw [partitionWrite]
    obtain ⟨g, hg, ht⟩ := partitionFold_elem (endpoints.zip pgs) [] []
      (some ep, pr) ep hmem rfl
    exact ⟨g, hg, hprt ▸ ht⟩
  · intro i t hep hkey
    rw [List.getElem?_map] at hkey
    obtain ⟨pr, hpr, hprt⟩ := Option.map_eq_some'.mp hkey
    have hzip : (endpoints.zip pgs)[i]? = some (none, pr) :=
      List.getElem?_zip_eq_some.mpr ⟨hep, hpr⟩
    have hmem := List.getElem?_mem hzip
    rw [partitionWrite, partitionFold_unroutable_eq]
    rw [List.nil_append]
    refine List.mem_filterMap.mpr ⟨(none, pr), hmem, ?_⟩
    rw [← hprt]
  · rw [hpairs_flatten]
    exact hperm1
  · rw [fromPairs_okTables, fromPairs_errors]
    exact (ok_err_tables_perm _).trans (hpairs_flatten ▸ hperm1)

/-- Closed witness for `C2_write_partitioning`: tables `a`, `b` routed
to one endpoint, `c` unroutable. -/
theorem C2_witness :
    List.Perm (partsTables (partitionWrite
        [(['a'], 0), (['b'], 1), (['c'], 2)]
        [some ⟨['x'], 1⟩, some ⟨['x'], 1⟩, none]).1 ++
      (partitionWrite [(['a'], 0), (['b'], 1), (['c'], 2)]
        [some ⟨['x'], 1⟩, some ⟨['x'], 1⟩, none]).2)
      ([(['a'], 0), (['b'], 1), (['c'], 2)].map Prod.fst)
    ∧ (['c'] : Str) ∈ (partitionWrite [(['a'], 0), (['b'], 1), (['c'], 2)]
        [some ⟨['x'], 1⟩, some ⟨['x'], 1⟩, none]).2 := by
  have h := C2_write_partitioning [(['a'], 0), (['b'], 1), (['c'], 2)]
    [some ⟨['x'], 1⟩, some ⟨['x'], 1⟩, none]
    [Except.ok ⟨5, 0⟩] (by decide) rfl rfl
  exact ⟨h.1, h.2.2.1 2 ['c'] rfl rfl⟩

end Horae
